import Mathlib

deriving instance DecidableEq for Except

/-!
# Verification of the ITQ LSH similarity index

Shallow embedding of `python/smqtk/similarity_index/lsh/itq.py`
(`ITQSimilarityIndex`): descriptor vectors are `List ℚ`, matrices are
`List (List ℚ)` in row-major order, and the numpy linear-algebra
primitives together with numpy's global random-number generator are an
abstract deterministic environment (`NumEnv`) threaded through
`build_index`.  Fallible Python code returns `Except PyError`, and
methods that mutate `self` also return the post-call state so that
partial mutation on failure is observable.
-/

namespace ITQ

/-- A Python exception, by class (and message where the class alone is
ambiguous).  `emptyIndexError` is the dedicated error the specification
names for querying an empty index; the source defines no such exception,
and the constructor exists only so that claims mentioning it can be
stated. -/
inductive PyError where
  | typeError : PyError
  | valueError : String → PyError
  | attributeError : PyError
  | assertionError : PyError
  | stateLoadError : PyError
  | stateSaveError : PyError
  | unpicklingError : PyError
  | emptyIndexError : PyError
deriving DecidableEq

/-- A descriptor element: an opaque unique id together with its
real-valued feature vector (`smqtk.data_rep.DescriptorElement` at the
interface the index uses: `uuid` plus `vector()`). -/
structure DescriptorElement where
  id : Nat
  vec : List ℚ
deriving DecidableEq

/-- Number of columns of a row-major matrix, as numpy's `shape[1]`:
the length of the first row (rows are uniform for well-formed data). -/
def ncols (m : List (List ℚ)) : Nat := (m.headD []).length

/-- Transpose of a row-major matrix, shape-directed as numpy's is:
column `j` collects entry `j` of every row. -/
def transposeU (m : List (List ℚ)) : List (List ℚ) :=
  (List.range (ncols m)).map (fun j => m.map (fun row => row.getD j 0))

/-- Dot product of two vectors (`numpy.dot` on 1-D inputs). -/
def dotQ (u v : List ℚ) : ℚ := (List.zipWith (· * ·) u v).sum

/-- Componentwise vector subtraction. -/
def vecSub (u v : List ℚ) : List ℚ := List.zipWith (· - ·) u v

/-- `numpy.dot` of a 1-D vector with a 2-D matrix: entry `j` is the dot
product of `v` with column `j`. -/
def vecMatMul (v : List ℚ) (m : List (List ℚ)) : List ℚ :=
  (transposeU m).map (dotQ v)

/-- `numpy.dot` of two 2-D matrices. -/
def matMul (a b : List (List ℚ)) : List (List ℚ) :=
  a.map (fun row => vecMatMul row b)

/-- Mean of a list of rationals (`numpy.mean` of a 1-D array). -/
def rowMean (row : List ℚ) : ℚ := row.sum / row.length

/-- Column means of a row-major matrix (`numpy.mean(x, axis=0)`). -/
def colMean (x : List (List ℚ)) : List ℚ := (transposeU x).map rowMean

/-- `numpy.cov` of a D×N matrix whose rows are variables and whose
columns are observations (default `ddof = 1`). -/
def covM (m : List (List ℚ)) : List (List ℚ) :=
  let nObs : ℚ := ncols m
  let centered := m.map (fun row => row.map (fun a => a - rowMean row))
  centered.map (fun ri => centered.map (fun rj => dotQ ri rj / (nObs - 1)))

/-- Modelled from the spec: `smqtk.utils.bit_utils.bit_vector_to_int` is
not under `src/`; per the spec the bit at index 0 is the most
significant, so the bits are folded most-significant-first. -/
def bit_vector_to_int (bits : List Bool) : Nat :=
  bits.foldl (fun acc b => 2 * acc + (if b then 1 else 0)) 0

/-- Number of set bits of a natural number, by structural recursion on a
fuel bound (`n` itself bounds the number of halving steps). -/
def popcountAux : Nat → Nat → Nat
  | 0, _ => 0
  | fuel + 1, n => if n = 0 then 0 else n % 2 + popcountAux fuel (n / 2)

/-- Number of set bits of a natural number. -/
def popcount (n : Nat) : Nat := popcountAux n n

/-- Modelled from the spec: `smqtk.utils.distance_functions.hamming_distance`
is not under `src/`; per the spec glossary it is the number of differing
bits of two equal-length codes. -/
def hamming_distance (a b : Nat) : Nat := popcount (Nat.xor a b)

/-- Modelled from the spec: the `CodeIndex` collaborator
(`smqtk.similarity_index.lsh.code_index.memory.MemoryCodeIndex`) is not
under `src/`.  Per §4.3 it is a hash table from small-code to the
descriptors sharing that code; it is modelled as the list of
`(code, descriptor)` pairs loaded into it, in insertion order (giving the
required within-session-stable bucket order). -/
structure CodeIndex where
  entries : List (Nat × DescriptorElement)
deriving DecidableEq

/-- Total number of descriptors across all codes (§4.3 `count()`). -/
def CodeIndex.count (ci : CodeIndex) : Nat := ci.entries.length

/-- The distinct codes currently populated (§4.3 `codes()`). -/
def CodeIndex.codes (ci : CodeIndex) : List Nat :=
  (ci.entries.map Prod.fst).dedup

/-- All descriptors sharing the given code, in stable (insertion) order
(§4.3 `getDescriptors`). -/
def CodeIndex.get_descriptors (ci : CodeIndex) (c : Nat) : List DescriptorElement :=
  (ci.entries.filter (fun p => p.1 = c)).map Prod.snd

/-- Bulk load of `(code, descriptor)` pairs (§4.3 `addMany`). -/
def CodeIndex.add_many (ci : CodeIndex) (ps : List (Nat × DescriptorElement)) : CodeIndex :=
  ⟨ci.entries ++ ps⟩

/-- The distance methods the index recognises. -/
inductive DistMethod where
  | euclidean : DistMethod
  | cosine : DistMethod
  | hik : DistMethod
deriving DecidableEq

/-- `ITQSimilarityIndex._get_dist_func`: map a string label to a distance
method, raising `ValueError` on an unrecognised label. -/
def get_dist_func (distance_method : String) : Except PyError DistMethod :=
  if distance_method = "euclidean" then .ok .euclidean
  else if distance_method = "cosine" then .ok .cosine
  else if distance_method = "hik" then .ok .hik
  else .error (.valueError "Invalid distance method label.")

/-- The mutable state of an `ITQSimilarityIndex` instance: the fields set
by `__init__`, `build_index` and `load_index`.  `mean_vector`, `r` and
`code_index` start as `None`. -/
structure ITQState where
  bit_len : Nat
  itq_iter_num : Nat
  rand_seed : Option Int
  mean_vector : Option (List ℚ)
  r : Option (List (List ℚ))
  code_index : Option CodeIndex
  dist_method : String
deriving DecidableEq

/-- `ITQSimilarityIndex.__init__`: validates `bit_length > 0` and
`itq_iterations > 0` by assertion, resolves the distance function label
(raising `ValueError` on a bad label), and otherwise produces the fresh
state with no mean vector, rotation or code index. -/
def ITQ_init (bit_length itq_iterations : Nat) (distance_method : String)
    (random_seed : Option Int) : Except PyError ITQState :=
  if bit_length = 0 then .error .assertionError
  else if itq_iterations = 0 then .error .assertionError
  else
    match get_dist_func distance_method with
    | .error e => .error e
    | .ok _ =>
        .ok { bit_len := bit_length
              itq_iter_num := itq_iterations
              rand_seed := random_seed
              mean_vector := none
              r := none
              code_index := none
              dist_method := distance_method }

/-- `ITQSimilarityIndex.count`: the code index's total descriptor count
when a code index is present, else 0. -/
def ITQState.count (st : ITQState) : Nat :=
  match st.code_index with
  | some ci => ci.count
  | none => 0

/-- The numpy primitives `build_index` calls, which live outside this
repository: the global RNG (`numpy.random.seed` / `numpy.random.randn`)
modelled as a deterministic stream over an abstract state `Nat`, plus
`numpy.linalg.svd` (returning `u, s, vh`) and `numpy.linalg.eig`
(returning eigenvalues and the matrix whose columns are eigenvectors).
All are deterministic functions of their inputs, as the real routines
are for a fixed library build. -/
structure NumEnv where
  seedState : Int → Nat
  randn : Nat → Nat → Nat → List (List ℚ) × Nat
  svd : List (List ℚ) → List (List ℚ) × List ℚ × List (List ℚ)
  eig : List (List ℚ) → List ℚ × List (List ℚ)

/-- The seed gate at the top of `build_index`:
`if self._rand_seed: numpy.random.seed(self._rand_seed)`.  Python
truthiness means the RNG is reseeded only when the stored seed is
neither `None` nor `0`. -/
def initRng (env : NumEnv) (seed : Option Int) (rng : Nat) : Nat :=
  match seed with
  | some s => if s = 0 then rng else env.seedState s
  | none => rng

/-- A stable insertion sort: Python's `sorted` is a stable sort, and
`heapq.nsmallest(n, it, key)` is documented as equivalent to
`sorted(it, key=key)[:n]`. -/
def insertSorted (r : α → α → Prop) [DecidableRel r] (a : α) : List α → List α
  | [] => [a]
  | b :: bs => if r a b then a :: b :: bs else b :: insertSorted r a bs

/-- Stable sort by repeated insertion (models Python `sorted`). -/
def sortStable (r : α → α → Prop) [DecidableRel r] (l : List α) : List α :=
  l.foldr (insertSorted r) []

/-- The ITQ optimisation loop of `_find_itq_rotation`: each iteration
binarises the rotated projection and realigns the rotation by an
orthogonal-Procrustes step `r = ua · ubᵀ` from `svd(uxᵀ · v)`. -/
def itq_loop (env : NumEnv) (v : List (List ℚ)) : Nat → List (List ℚ) → List (List ℚ)
  | 0, r => r
  | k + 1, r =>
      let z := matMul v r
      let ux := z.map (List.map (fun zij => if 0 ≤ zij then (1 : ℚ) else -1))
      let c := matMul (transposeU ux) v
      let ub := (env.svd c).1
      let ua := (env.svd c).2.2
      itq_loop env v k (matMul ua (transposeU ub))

/-- `ITQSimilarityIndex._find_itq_rotation`: initialise the rotation
from the orthogonalised random Gaussian matrix (`u11[:, :bit]` of
`svd(randn(bit, bit))`), run the ITQ loop, then recompute `z` with the
final rotation and binarise it (`b[z >= 0] = True`). -/
def find_itq_rotation (env : NumEnv) (v : List (List ℚ)) (n_iter : Nat) (rng : Nat) :
    List (List Bool) × List (List ℚ) × Nat :=
  let bit := ncols v
  let rn := env.randn rng bit bit
  let u11 := (env.svd rn.1).1
  let r0 := u11.map (List.take bit)
  let r := itq_loop env v n_iter r0
  let z := matMul v r
  let b := z.map (List.map (fun zij => decide (0 ≤ zij)))
  (b, r, rn.2)

/-- `ITQSimilarityIndex.build_index`: reseed the RNG when the stored
seed is truthy; collect the descriptor vectors, raising
`ValueError("No descriptors given!")` when there are none; install the
column mean as `_mean_vector` and center the data; eigendecompose the
covariance, keep the `bit_len` eigenvectors of largest eigenvalue
(a stable descending sort, as `sorted(..., reverse=1)`), and project;
run ITQ and install the fused rotation `pc_top · r` as `_r`; finally
obtain a fresh code index from the factory and bulk-load the
`(small-code, descriptor)` pairs.  The factory is caller-supplied and
may fail; as in the source, fields already assigned stay assigned when
a later step fails.  Returns (outcome, post-state, post-RNG-state). -/
def build_index (env : NumEnv) (factory : Except PyError CodeIndex)
    (st : ITQState) (descriptors : List DescriptorElement) (rng : Nat) :
    Except PyError Unit × ITQState × Nat :=
  let rng0 := initRng env st.rand_seed rng
  let x := descriptors.map DescriptorElement.vec
  if x.isEmpty then (.error (.valueError "No descriptors given!"), st, rng0)
  else
    let mean := colMean x
    let st1 := { st with mean_vector := some mean }
    let xc := x.map (fun row => vecSub row mean)
    let c := covM (transposeU xc)
    let l := (env.eig c).1
    let pc := (env.eig c).2
    let top_pairs :=
      (sortStable (fun p q : ℚ × List ℚ => q.1 ≤ p.1) (List.zip l (transposeU pc))).take
        st.bit_len
    let pc_top := transposeU (top_pairs.map Prod.snd)
    let xx := matMul xc pc_top
    let fir := find_itq_rotation env xx st.itq_iter_num rng0
    let bmat := fir.1
    let st2 := { st1 with r := some (matMul pc_top fir.2.1) }
    match factory with
    | .error e => (.error e, st2, fir.2.2)
    | .ok ci0 =>
        let pairs := List.zipWith (fun bits d => (bit_vector_to_int bits, d)) bmat descriptors
        (.ok (), { st2 with code_index := some (ci0.add_many pairs) }, fir.2.2)

/-- The hash of one vector against a mean vector and fused rotation:
`z = (v - mean) · r`, thresholded at zero (`b[z >= 0] = 1`). -/
def hash_bits (mu : List ℚ) (r : List (List ℚ)) (v : List ℚ) : List Bool :=
  (vecMatMul (vecSub v mu) r).map (fun zi => decide (0 ≤ zi))

/-- `ITQSimilarityIndex.get_small_code`: returns the descriptor's
vector, its bit vector, and the packed small code.  When the index is
untrained (`_mean_vector` / `_r` are `None`) the numpy expression
`numpy.dot(v - None, None)` raises `TypeError`. -/
def get_small_code (st : ITQState) (d : DescriptorElement) :
    Except PyError (List ℚ × List Bool × Nat) :=
  match st.mean_vector, st.r with
  | some mu, some r =>
      .ok (d.vec, hash_bits mu r d.vec, bit_vector_to_int (hash_bits mu r d.vec))
  | _, _ => .error .typeError

/-- The candidate-code selection of `nn`:
`heapq.nsmallest(n, code_set, key = hamming_distance(d_sc, ·))`, i.e.
the stable sort of the populated codes by Hamming distance to the query
code, truncated to `n`. -/
def nearCodes (codeList : List Nat) (q n : Nat) : List Nat :=
  (sortStable (fun a b => hamming_distance q a ≤ hamming_distance q b) codeList).take n

/-- The bucket-accumulation loop of `nn`: extend the accumulator with
each code's bucket in turn, breaking out as soon as the accumulated
count reaches the termination count. -/
def collect_neighbors (ci : CodeIndex) (term : Nat) (acc : List DescriptorElement) :
    List Nat → List DescriptorElement
  | [] => acc
  | c :: rest =>
      let acc2 := acc ++ ci.get_descriptors c
      if term ≤ acc2.length then acc2 else collect_neighbors ci term acc2 rest

/-- The concatenation of the buckets of a list of codes. -/
def bucketsOf (ci : CodeIndex) (cs : List Nat) : List DescriptorElement :=
  (cs.map ci.get_descriptors).flatten

/-- `ITQSimilarityIndex.nn`: hash the probe (which raises `TypeError`
when untrained), read the populated codes (`AttributeError` when
`_code_index` is `None`), gather candidates from the `n` nearest codes
until `min(n, count)` are collected, score every candidate with the
configured distance function, stable-sort by distance and return the
first `n`.  The result list pairs each returned distance with its
descriptor, i.e. it zips the two tuples the source returns; on an empty
index the source's `distances, neighbors = zip(*ordered)` unpacking of
an empty list raises `ValueError`. -/
def nn (distFn : List ℚ → List ℚ → ℚ) (st : ITQState) (d : DescriptorElement)
    (n : Nat) : Except PyError (List (ℚ × DescriptorElement)) :=
  match get_small_code st d with
  | .error e => .error e
  | .ok (d_vec, _, d_sc) =>
      match st.code_index with
      | none => .error .attributeError
      | some ci =>
          let near_codes := nearCodes ci.codes d_sc n
          let termination_count := min n st.count
          let neighbors := collect_neighbors ci termination_count [] near_codes
          let ordered :=
            sortStable (fun p q : ℚ × DescriptorElement => p.1 ≤ q.1)
              (neighbors.map (fun e => (distFn d_vec e.vec, e)))
          if ordered.isEmpty then
            .error (.valueError "need more than 0 values to unpack")
          else .ok (ordered.take n)

/-- The persisted record `save_index` pickles and `load_index` expects:
exactly the keys of the `state` dictionary in the source. -/
structure SavedState where
  bit_len : Nat
  itq_iter : Nat
  rand_seed : Option Int
  mean_vector : List ℚ
  rotation : List (List ℚ)
  code_index : CodeIndex
  distance_method : String
deriving DecidableEq

/-- What `load_index` finds at a save-file path: a pickle that
deserialises to a state record, or bytes that `cPickle.load` rejects. -/
inductive FileContent where
  | valid : SavedState → FileContent
  | corrupt : FileContent
deriving DecidableEq

/-- The filesystem visible to `load_index`: a map from directory path to
the content of `<dir_path>/itq_index.pickle`, `none` when that file is
missing. -/
def FileSystem : Type := String → Option FileContent

/-- `ITQSimilarityIndex.load_index`: raise `SimilarityIndexStateLoadError`
when the expected save file is missing; otherwise `cPickle.load` the
file (its own deserialisation error propagates when the bytes are
corrupt); on a successful load assign every field from the record —
including `_bit_len`, replacing the configured value — and finally
re-derive the distance function from the persisted label, whose
`ValueError` on an unrecognised label propagates after the fields were
already reassigned. -/
def load_index (fs : FileSystem) (st : ITQState) (dir_path : String) :
    Except PyError Unit × ITQState :=
  match fs dir_path with
  | none => (.error .stateLoadError, st)
  | some .corrupt => (.error .unpicklingError, st)
  | some (.valid s) =>
      let st2 : ITQState :=
        { bit_len := s.bit_len
          itq_iter_num := s.itq_iter
          rand_seed := s.rand_seed
          mean_vector := some s.mean_vector
          r := some s.rotation
          code_index := some s.code_index
          dist_method := s.distance_method }
      match get_dist_func s.distance_method with
      | .error e => (.error e, st2)
      | .ok _ => (.ok (), st2)

/-- A small concrete instantiation of the numpy environment, used to
evaluate the embedding at concrete inputs: the RNG stream yields the
constant matrix of the current state and advances it, `svd` and `eig`
are simple deterministic placeholders.  Any deterministic instantiation
is a legal behaviour of the abstract interface `build_index` is proved
against. -/
def toyEnv : NumEnv where
  seedState s := s.natAbs
  randn rng rows cols := (List.replicate rows (List.replicate cols (rng : ℚ)), rng + 1)
  svd m := (m, [], m)
  eig m :=
    (m.map (fun row => row.headD 0),
      (List.range m.length).map (fun i =>
        (List.range m.length).map (fun j => if i = j then (1 : ℚ) else 0)))

/-- A probe/training descriptor with a one-dimensional vector. -/
def dElem0 : DescriptorElement := ⟨0, [0]⟩

/-- A second training descriptor. -/
def dElem1 : DescriptorElement := ⟨1, [2]⟩

/-- A descriptor sitting in a previously built code index. -/
def dElem9 : DescriptorElement := ⟨9, [3]⟩

/-- A freshly constructed instance configured with `random_seed = 0`,
`bit_length = 1`, `itq_iterations = 1`. -/
def stSeed0 : ITQState :=
  { bit_len := 1, itq_iter_num := 1, rand_seed := some 0, mean_vector := none,
    r := none, code_index := none, dist_method := "cosine" }

/-- The same fresh instance configured with `random_seed = 5`. -/
def stSeed5 : ITQState := { stSeed0 with rand_seed := some 5 }

/-- An instance carrying a previously trained state: mean vector `[5]`,
rotation `[[7]]`, and a code index holding one descriptor. -/
def stTrained : ITQState :=
  { bit_len := 1, itq_iter_num := 1, rand_seed := none, mean_vector := some [5],
    r := some [[7]], code_index := some ⟨[(1, dElem9)]⟩, dist_method := "cosine" }

/-! ## General lemmas about the sort, the bit packing and the buckets -/

theorem insertSorted_perm (r : α → α → Prop) [DecidableRel r] (a : α) (l : List α) :
    (insertSorted r a l).Perm (a :: l) := by
  induction l with
  | nil => simp [insertSorted]
  | cons b bs ih =>
      simp only [insertSorted]
      split
      · exact List.Perm.refl _
      · exact (ih.cons b).trans (List.Perm.swap a b bs)

theorem sortStable_perm (r : α → α → Prop) [DecidableRel r] (l : List α) :
    (sortStable r l).Perm l := by
  induction l with
  | nil => exact List.Perm.refl _
  | cons a as ih => exact (insertSorted_perm r a _).trans (ih.cons a)

theorem sortStable_length (r : α → α → Prop) [DecidableRel r] (l : List α) :
    (sortStable r l).length = l.length :=
  (sortStable_perm r l).length_eq

theorem mem_sortStable (r : α → α → Prop) [DecidableRel r] {l : List α} {x : α} :
    x ∈ sortStable r l ↔ x ∈ l :=
  (sortStable_perm r l).mem_iff

theorem insertSorted_pairwise (r : α → α → Prop) [DecidableRel r]
    (total : ∀ a b, ¬r a b → r b a) (trans : ∀ a b c, r a b → r b c → r a c)
    (a : α) {l : List α} (h : l.Pairwise r) : (insertSorted r a l).Pairwise r := by
  induction l with
  | nil => simp [insertSorted]
  | cons b bs ih =>
      simp only [insertSorted]
      split
      · rename_i hab
        refine List.Pairwise.cons ?_ h
        intro x hx
        rcases List.mem_cons.mp hx with hxb | hxbs
        · exact hxb ▸ hab
        · exact trans a b x hab ((List.pairwise_cons.mp h).1 x hxbs)
      · rename_i hab
        refine List.Pairwise.cons ?_ (ih (List.pairwise_cons.mp h).2)
        intro x hx
        rcases List.mem_cons.mp ((insertSorted_perm r a _).mem_iff.mp hx) with hxa | hxbs
        · exact hxa ▸ total a b hab
        · exact (List.pairwise_cons.mp h).1 x hxbs

theorem sortStable_pairwise (r : α → α → Prop) [DecidableRel r]
    (total : ∀ a b, ¬r a b → r b a) (trans : ∀ a b c, r a b → r b c → r a c)
    (l : List α) : (sortStable r l).Pairwise r := by
  induction l with
  | nil => simp [sortStable]
  | cons a as ih => exact insertSorted_pairwise r total trans a ih

theorem bit_vector_to_int_append (bs : List Bool) (b : Bool) :
    bit_vector_to_int (bs ++ [b]) =
      2 * bit_vector_to_int bs + (if b then 1 else 0) := by
  simp [bit_vector_to_int, List.foldl_append]

/-- The packed code of a `b`-bit vector lies in `[0, 2^b)`. -/
theorem bit_vector_to_int_lt (bs : List Bool) :
    bit_vector_to_int bs < 2 ^ bs.length := by
  induction bs using List.reverseRecOn with
  | nil => simp [bit_vector_to_int]
  | append_singleton bs b ih =>
      rw [bit_vector_to_int_append]
      have h2 : (2 : Nat) ^ (bs ++ [b]).length = 2 ^ bs.length * 2 := by
        simp [List.length_append, pow_succ]
      rw [h2]
      cases b <;> simp <;> omega

/-- The foldl packing equals the most-significant-bit-first weighted
sum: bit `i` contributes `2 ^ (len - 1 - i)`. -/
theorem bit_vector_to_int_eq_msb_sum (bs : List Bool) :
    bit_vector_to_int bs =
      ((List.range bs.length).map
        (fun i => if bs.getD i false then 2 ^ (bs.length - 1 - i) else 0)).sum := by
  induction bs using List.reverseRecOn with
  | nil => simp [bit_vector_to_int]
  | append_singleton bs b ih =>
      rw [bit_vector_to_int_append, ih]
      have hlen : (bs ++ [b]).length = bs.length + 1 := by simp
      rw [hlen, List.range_succ, List.map_append, List.sum_append]
      have hlast :
          ((List.range bs.length).map
            (fun i => if (bs ++ [b]).getD i false then 2 ^ (bs.length + 1 - 1 - i) else 0)).sum
            = 2 * ((List.range bs.length).map
                (fun i => if bs.getD i false then 2 ^ (bs.length - 1 - i) else 0)).sum := by
        rw [← List.sum_map_mul_left]
        refine congrArg List.sum (List.map_congr_left ?_)
        intro i hi
        have hilt : i < bs.length := List.mem_range.mp hi
        have hgd : (bs ++ [b]).getD i false = bs.getD i false := by
          rw [List.getD_eq_getElem?_getD, List.getD_eq_getElem?_getD,
            List.getElem?_append_left hilt]
        rw [hgd]
        have hexp : bs.length + 1 - 1 - i = (bs.length - 1 - i) + 1 := by omega
        rw [hexp, pow_succ]
        cases hbi : bs.getD i false <;> simp [mul_comm]
      have hb :
          ([bs.length].map
            (fun i => if (bs ++ [b]).getD i false then 2 ^ (bs.length + 1 - 1 - i) else 0)).sum
            = if b then 1 else 0 := by
        have hgd : (bs ++ [b]).getD bs.length false = b := by
          rw [List.getD_eq_getElem?_getD, List.getElem?_append_right (le_refl _)]
          simp
        simp only [List.map_cons, List.map_nil, List.sum_cons, List.sum_nil, add_zero, hgd]
        have hexp : bs.length + 1 - 1 - bs.length = 0 := by omega
        rw [hexp, pow_zero]
      rw [hlast, hb]

theorem get_descriptors_length (ci : CodeIndex) (c : Nat) :
    (ci.get_descriptors c).length = (ci.entries.map Prod.fst).count c := by
  simp only [CodeIndex.get_descriptors, List.length_map]
  rw [← List.countP_eq_length_filter, List.count, List.countP_map]
  refine List.countP_congr ?_
  intro a _
  simp [Function.comp]

/-- A code reported by `codes()` has a nonempty bucket. -/
theorem bucket_ne_nil_of_mem_codes {ci : CodeIndex} {c : Nat} (hc : c ∈ ci.codes) :
    ci.get_descriptors c ≠ [] := by
  have hmem : c ∈ ci.entries.map Prod.fst := List.mem_dedup.mp hc
  have hpos : 0 < (ci.get_descriptors c).length := by
    rw [get_descriptors_length]
    exact List.count_pos_iff.mpr hmem
  exact List.ne_nil_of_length_pos hpos

/-- The buckets of the distinct codes together hold exactly `count()`
descriptors. -/
theorem bucketsOf_codes_length (ci : CodeIndex) :
    (bucketsOf ci ci.codes).length = ci.count := by
  rw [bucketsOf, List.length_flatten, List.map_map]
  have h1 : (ci.codes.map (List.length ∘ ci.get_descriptors))
      = ci.codes.map (fun c => (ci.entries.map Prod.fst).count c) := by
    refine List.map_congr_left ?_
    intro c _
    simp [Function.comp, get_descriptors_length]
  rw [h1, CodeIndex.codes]
  rw [List.sum_map_count_dedup_eq_length (ci.entries.map Prod.fst)]
  simp [CodeIndex.count]

theorem bucketsOf_length_of_perm {ci : CodeIndex} {cs : List Nat}
    (h : cs.Perm ci.codes) : (bucketsOf ci cs).length = ci.count := by
  rw [bucketsOf, List.length_flatten, List.map_map,
    ← bucketsOf_codes_length ci, bucketsOf, List.length_flatten, List.map_map]
  exact (h.map (List.length ∘ ci.get_descriptors)).sum_eq

/-- At least one descriptor per nonempty bucket. -/
theorem bucketsOf_length_ge {ci : CodeIndex} {cs : List Nat}
    (h : ∀ c ∈ cs, ci.get_descriptors c ≠ []) :
    cs.length ≤ (bucketsOf ci cs).length := by
  induction cs with
  | nil => simp [bucketsOf]
  | cons c rest ih =>
      have h1 : 0 < (ci.get_descriptors c).length :=
        List.length_pos.mpr (h c (List.mem_cons_self c rest))
      have h2 := ih (fun x hx => h x (List.mem_cons_of_mem c hx))
      simp only [bucketsOf, List.map_cons, List.flatten_cons, List.length_append,
        List.length_cons]
      simp only [bucketsOf] at h2
      omega

/-- Behaviour of the accumulation loop: it returns the accumulator
extended by the buckets of some prefix of the code list; every proper
sub-prefix stayed strictly below the termination count, and if the loop
broke before exhausting the codes then the returned collection reached
the termination count. -/
theorem collect_neighbors_cons (ci : CodeIndex) (term : Nat)
    (acc : List DescriptorElement) (c : Nat) (rest : List Nat) :
    collect_neighbors ci term acc (c :: rest) =
      if term ≤ (acc ++ ci.get_descriptors c).length then acc ++ ci.get_descriptors c
      else collect_neighbors ci term (acc ++ ci.get_descriptors c) rest := rfl

theorem collect_neighbors_spec (ci : CodeIndex) (term : Nat) :
    ∀ (cs : List Nat) (acc : List DescriptorElement), acc.length < term →
      ∃ k, k ≤ cs.length ∧
        collect_neighbors ci term acc cs = acc ++ bucketsOf ci (cs.take k) ∧
        (∀ j < k, (acc ++ bucketsOf ci (cs.take j)).length < term) ∧
        (k < cs.length → term ≤ (acc ++ bucketsOf ci (cs.take k)).length) := by
  intro cs
  induction cs with
  | nil =>
      intro acc _
      refine ⟨0, le_refl 0, by simp [collect_neighbors, bucketsOf], ?_, ?_⟩
      · intro j hj; omega
      · intro hk; simp at hk
  | cons c rest ih =>
      intro acc hacc
      by_cases hterm : term ≤ (acc ++ ci.get_descriptors c).length
      · refine ⟨1, by simp, ?_, ?_, ?_⟩
        · rw [collect_neighbors_cons, if_pos hterm]
          simp [bucketsOf]
        · intro j hj
          have hj0 : j = 0 := by omega
          subst hj0
          simpa [bucketsOf] using hacc
        · intro _
          simpa [bucketsOf] using hterm
      · have hlt : (acc ++ ci.get_descriptors c).length < term := Nat.lt_of_not_le hterm
        obtain ⟨k, hk, heq, hfirst, hreach⟩ := ih (acc ++ ci.get_descriptors c) hlt
        refine ⟨k + 1, ?_, ?_, ?_, ?_⟩
        · simp only [List.length_cons]
          omega
        · rw [collect_neighbors_cons, if_neg hterm, heq, List.take_succ_cons]
          simp [bucketsOf, List.append_assoc]
        · intro j hj
          cases j with
          | zero => simpa [bucketsOf] using hacc
          | succ j' =>
              have hj' := hfirst j' (by omega)
              rw [List.take_succ_cons]
              simpa [bucketsOf, List.append_assoc] using hj'
        · intro hklt
          have hklt' : k < rest.length := by
            simp only [List.length_cons] at hklt
            omega
          have hr := hreach hklt'
          rw [List.take_succ_cons]
          simpa [bucketsOf, List.append_assoc] using hr

theorem nearCodes_length (codeList : List Nat) (q n : Nat) :
    (nearCodes codeList q n).length = min n codeList.length := by
  simp [nearCodes, List.length_take, sortStable_length]

theorem nearCodes_mem {codeList : List Nat} {q n c : Nat}
    (h : c ∈ nearCodes codeList q n) : c ∈ codeList :=
  (mem_sortStable _).mp ((List.take_sublist _ _).subset h)

/-- The selected codes are listed in ascending order of Hamming distance
to the query code. -/
theorem nearCodes_sorted (codeList : List Nat) (q n : Nat) :
    (nearCodes codeList q n).Pairwise
      (fun a b => hamming_distance q a ≤ hamming_distance q b) := by
  exact List.Pairwise.sublist (List.take_sublist _ _)
    (sortStable_pairwise (fun a b => hamming_distance q a ≤ hamming_distance q b)
      (fun a b hab => le_of_not_le hab)
      (fun a b c hab hbc => le_trans hab hbc) codeList)

/-- No unselected populated code is strictly closer than a selected
code. -/
theorem nearCodes_smallest {codeList : List Nat} {q n c c2 : Nat}
    (hc : c ∈ nearCodes codeList q n) (hc2 : c2 ∈ codeList)
    (hc2n : c2 ∉ nearCodes codeList q n) :
    hamming_distance q c ≤ hamming_distance q c2 := by
  have hsorted := sortStable_pairwise
    (fun a b => hamming_distance q a ≤ hamming_distance q b)
    (fun a b hab => le_of_not_le hab) (fun a b c hab hbc => le_trans hab hbc) codeList
  have hsplit := List.take_append_drop n
    (sortStable (fun a b => hamming_distance q a ≤ hamming_distance q b) codeList)
  have hc2s : c2 ∈ sortStable
      (fun a b => hamming_distance q a ≤ hamming_distance q b) codeList :=
    (mem_sortStable _).mpr hc2
  rw [← hsplit] at hsorted hc2s
  rcases List.mem_append.mp hc2s with h1 | h2
  · exact absurd h1 hc2n
  · exact (List.pairwise_append.mp hsorted).2.2 c hc c2 h2

/-- When at most `n` distinct codes exist, every populated code is
selected (the selection is the full code list, up to the sort's
reordering). -/
theorem nearCodes_all {codeList : List Nat} {q n : Nat}
    (h : codeList.length ≤ n) : (nearCodes codeList q n).Perm codeList := by
  rw [nearCodes, List.take_of_length_le (by rw [sortStable_length]; exact h)]
  exact sortStable_perm _ codeList

/-- The trained-index branch of `nn`, written out with the state
components in hand (exactly the source's code path once
`get_small_code` succeeded and `_code_index` is present). -/
def nn_trained (distFn : List ℚ → List ℚ → ℚ) (mu : List ℚ) (r : List (List ℚ))
    (ci : CodeIndex) (d : DescriptorElement) (n : Nat) :
    Except PyError (List (ℚ × DescriptorElement)) :=
  let d_sc := bit_vector_to_int (hash_bits mu r d.vec)
  let near_codes := nearCodes ci.codes d_sc n
  let neighbors := collect_neighbors ci (min n ci.count) [] near_codes
  let ordered := sortStable (fun p q : ℚ × DescriptorElement => p.1 ≤ q.1)
      (neighbors.map (fun e => (distFn d.vec e.vec, e)))
  if ordered.isEmpty then .error (.valueError "need more than 0 values to unpack")
  else .ok (ordered.take n)

/-- Unfolding of `nn` on a trained index with a code index in place. -/
theorem nn_eq (distFn : List ℚ → List ℚ → ℚ) {st : ITQState} {mu : List ℚ}
    {r : List (List ℚ)} {ci : CodeIndex} (hm : st.mean_vector = some mu)
    (hr : st.r = some r) (hc : st.code_index = some ci)
    (d : DescriptorElement) (n : Nat) :
    nn distFn st d n = nn_trained distFn mu r ci d n := by
  simp only [nn, nn_trained, get_small_code, hm, hr, hc, ITQState.count]

/-- The populated-code list of a nonempty index is nonempty. -/
theorem codes_ne_nil {ci : CodeIndex} (hpos : 0 < ci.count) : ci.codes ≠ [] := by
  intro h
  have h1 : ci.entries.map Prod.fst = [] := by
    rw [CodeIndex.codes] at h
    exact (List.dedup_eq_nil _).mp h
  have h2 : ci.entries = [] := List.map_eq_nil_iff.mp h1
  rw [CodeIndex.count, h2] at hpos
  simp at hpos

/-- Core behaviour of `nn` on a trained, nonempty index: it succeeds,
the result is the `n`-truncation of the sorted scored candidate pool,
and that pool holds at least `min n count` descriptors. -/
theorem nn_ok_core (distFn : List ℚ → List ℚ → ℚ) {st : ITQState} {mu : List ℚ}
    {r : List (List ℚ)} {ci : CodeIndex} (hm : st.mean_vector = some mu)
    (hr : st.r = some r) (hc : st.code_index = some ci)
    (hpos : 0 < ci.count) (d : DescriptorElement) {n : Nat} (hn : 1 ≤ n) :
    ∃ res, nn distFn st d n = .ok res ∧
      res.length = min n ((collect_neighbors ci (min n ci.count) []
        (nearCodes ci.codes (bit_vector_to_int (hash_bits mu r d.vec)) n)).length) ∧
      min n ci.count ≤ (collect_neighbors ci (min n ci.count) []
        (nearCodes ci.codes (bit_vector_to_int (hash_bits mu r d.vec)) n)).length ∧
      List.Sorted (· ≤ ·) (res.map Prod.fst) := by
  have hterm_pos : 0 < min n ci.count := lt_min hn hpos
  set q := bit_vector_to_int (hash_bits mu r d.vec) with hq
  set NC := nearCodes ci.codes q n with hNCdef
  have hcodes_pos : 0 < ci.codes.length :=
    List.length_pos.mpr (codes_ne_nil hpos)
  have hNClen : NC.length = min n ci.codes.length := nearCodes_length ci.codes q n
  obtain ⟨k, hk, heq, _, hreach⟩ :=
    collect_neighbors_spec ci (min n ci.count) NC [] (by simpa using hterm_pos)
  set nb := collect_neighbors ci (min n ci.count) [] NC with hnbdef
  have heq' : nb = bucketsOf ci (NC.take k) := by simpa using heq
  have hnb_ge : min n ci.count ≤ nb.length := by
    rcases Nat.lt_or_ge k NC.length with hklt | hkge
    · have hr2 := hreach hklt
      simp only [List.nil_append] at hr2
      rw [heq']
      exact hr2
    · have hkeq : NC.take k = NC := List.take_of_length_le hkge
      rw [heq', hkeq]
      rcases le_or_lt ci.codes.length n with hle | hlt
      · have hperm : NC.Perm ci.codes := nearCodes_all hle
        rw [bucketsOf_length_of_perm hperm]
        exact min_le_right n ci.count
      · have hlenn : NC.length = n := by rw [hNClen]; omega
        have hge : NC.length ≤ (bucketsOf ci NC).length :=
          bucketsOf_length_ge (fun c hcm => bucket_ne_nil_of_mem_codes (nearCodes_mem hcm))
        calc min n ci.count ≤ n := min_le_left n ci.count
          _ = NC.length := hlenn.symm
          _ ≤ (bucketsOf ci NC).length := hge
  have hnb_pos : 0 < nb.length := lt_of_lt_of_le hterm_pos hnb_ge
  set pairsL := nb.map (fun e => (distFn d.vec e.vec, e)) with hpairs
  set ordered := sortStable (fun p q : ℚ × DescriptorElement => p.1 ≤ q.1) pairsL
    with hord
  have hordlen : ordered.length = nb.length := by
    rw [hord, sortStable_length, hpairs, List.length_map]
  have hord_ne : ordered.isEmpty = false := by
    have h1 : ordered ≠ [] := by
      intro h0
      rw [h0] at hordlen
      simp at hordlen
      omega
    cases h2 : ordered.isEmpty
    · rfl
    · exact absurd (List.isEmpty_iff.mp h2) h1
  refine ⟨ordered.take n, ?_, ?_, hnb_ge, ?_⟩
  · rw [nn_eq distFn hm hr hc d n]
    simp only [nn_trained]
    rw [← hq, ← hNCdef, ← hnbdef, ← hpairs, ← hord, hord_ne]
    simp
  · rw [List.length_take, hordlen]
  · have hpw : ordered.Pairwise (fun p q : ℚ × DescriptorElement => p.1 ≤ q.1) :=
      sortStable_pairwise (fun p q : ℚ × DescriptorElement => p.1 ≤ q.1)
        (fun a b hab => le_of_not_le hab)
        (fun a b c hab hbc => le_trans hab hbc) pairsL
    have hpwt := List.Pairwise.sublist (List.take_sublist n ordered) hpw
    exact List.pairwise_map.mpr hpwt

/-! ## The claims -/

/-- Modelled from the spec: §4.2 `encode` described in the spec's own
words — subtract the mean, multiply by the fused rotation, threshold at
zero (`≥ 0 → 1`), and pack the bits most-significant-first as the
weighted sum `Σ bit_i · 2 ^ (b - 1 - i)`.  Compared against the source's
`get_small_code`. -/
def encode_spec (mu : List ℚ) (r : List (List ℚ)) (v : List ℚ) :
    List ℚ × List Bool × Nat :=
  let bits := (vecMatMul (vecSub v mu) r).map (fun c => decide (0 ≤ c))
  (v, bits,
    ((List.range bits.length).map
      (fun i => if bits.getD i false then 2 ^ (bits.length - 1 - i) else 0)).sum)

/-- The hash bit vector has one bit per rotation column. -/
theorem hash_bits_length (mu : List ℚ) (r : List (List ℚ)) (v : List ℚ) :
    (hash_bits mu r v).length = ncols r := by
  simp [hash_bits, vecMatMul, transposeU]

/-- C4: on a trained index with bit length `b > 0` and a `D`-by-`b`
fused rotation, `get_small_code` returns the probe vector, the bit
vector obtained by centering, rotating and thresholding at zero, and
the code given by packing those bits most-significant-bit-first; the
code lies in `[0, 2^b)`. -/
theorem c4_theorem {st : ITQState} {mu : List ℚ} {r : List (List ℚ)}
    (d : DescriptorElement) (hm : st.mean_vector = some mu) (hr : st.r = some r)
    (hb : 0 < st.bit_len) (hcols : ncols r = st.bit_len) :
    get_small_code st d = .ok (encode_spec mu r d.vec) ∧
    bit_vector_to_int (hash_bits mu r d.vec) < 2 ^ st.bit_len := by
  constructor
  · simp only [get_small_code, hm, hr, encode_spec, hash_bits]
    rw [bit_vector_to_int_eq_msb_sum]
  · rw [← hcols, ← hash_bits_length mu r d.vec]
    exact bit_vector_to_int_lt (hash_bits mu r d.vec)

/-- Witness for C4 at a concrete trained state and probe. -/
theorem c4_witness :
    stTrained.mean_vector = some [5] ∧ stTrained.r = some [[7]] ∧
    0 < stTrained.bit_len ∧ ncols [[7]] = stTrained.bit_len ∧
    (get_small_code stTrained dElem1 = .ok (encode_spec [5] [[7]] dElem1.vec) ∧
      bit_vector_to_int (hash_bits [5] [[7]] dElem1.vec) < 2 ^ stTrained.bit_len) :=
  ⟨rfl, rfl, by decide, by decide,
    c4_theorem dElem1 rfl rfl (by decide) (by decide)⟩

/-- C5: on a trained, nonempty index, `nn(d, n)` with `n ≥ 1` succeeds
and returns at most `n` (distance, descriptor) pairs, fewer than `n`
only when the index holds fewer than `n` descriptors, with the returned
distances non-decreasing. -/
theorem c5_theorem (distFn : List ℚ → List ℚ → ℚ) {st : ITQState} {mu : List ℚ}
    {r : List (List ℚ)} {ci : CodeIndex} (hm : st.mean_vector = some mu)
    (hr : st.r = some r) (hc : st.code_index = some ci)
    (hpos : 0 < ci.count) (d : DescriptorElement) {n : Nat} (hn : 1 ≤ n) :
    ∃ res, nn distFn st d n = .ok res ∧ res.length ≤ n ∧
      (res.length < n → ci.count < n) ∧
      List.Sorted (· ≤ ·) (res.map Prod.fst) := by
  obtain ⟨res, hok, hlen, hge, hsort⟩ := nn_ok_core distFn hm hr hc hpos d hn
  refine ⟨res, hok, ?_, ?_, hsort⟩
  · rw [hlen]; exact min_le_left _ _
  · intro hlt
    rw [hlen] at hlt
    omega

/-- Witness for C5 at a concrete trained one-element index. -/
theorem c5_witness :
    stTrained.mean_vector = some [5] ∧ stTrained.r = some [[7]] ∧
    stTrained.code_index = some ⟨[(1, dElem9)]⟩ ∧
    0 < CodeIndex.count ⟨[(1, dElem9)]⟩ ∧ 1 ≤ 1 ∧
    (∃ res, nn (fun _ _ => 0) stTrained dElem0 1 = .ok res ∧ res.length ≤ 1 ∧
      (res.length < 1 → CodeIndex.count ⟨[(1, dElem9)]⟩ < 1) ∧
      List.Sorted (· ≤ ·) (res.map Prod.fst)) :=
  ⟨rfl, rfl, rfl, by decide, by decide,
    c5_theorem (fun _ _ => 0) rfl rfl rfl (by decide) dElem0 (by decide)⟩

/-- C6: within a call `nn(d, n)` on a trained nonempty index, the
candidate codes are `min n K` populated codes of smallest Hamming
distance to the probe's code (all of them when `K ≤ n`), listed in
ascending Hamming-distance order; the candidate descriptors are the
buckets of a prefix of that list, accumulation having stopped at the
first bucket with which the candidate count reached `min n count`. -/
theorem c6_theorem (distFn : List ℚ → List ℚ → ℚ) {st : ITQState} {mu : List ℚ}
    {r : List (List ℚ)} {ci : CodeIndex} (hm : st.mean_vector = some mu)
    (hr : st.r = some r) (hc : st.code_index = some ci)
    (hpos : 0 < ci.count) (d : DescriptorElement) {n : Nat} (hn : 1 ≤ n) :
    (∀ c ∈ nearCodes ci.codes (bit_vector_to_int (hash_bits mu r d.vec)) n,
      c ∈ ci.codes) ∧
    (nearCodes ci.codes (bit_vector_to_int (hash_bits mu r d.vec)) n).Pairwise
      (fun a b => hamming_distance (bit_vector_to_int (hash_bits mu r d.vec)) a ≤
        hamming_distance (bit_vector_to_int (hash_bits mu r d.vec)) b) ∧
    (nearCodes ci.codes (bit_vector_to_int (hash_bits mu r d.vec)) n).length
      = min n ci.codes.length ∧
    (ci.codes.length ≤ n →
      (nearCodes ci.codes (bit_vector_to_int (hash_bits mu r d.vec)) n).Perm ci.codes) ∧
    (∀ c ∈ nearCodes ci.codes (bit_vector_to_int (hash_bits mu r d.vec)) n,
      ∀ c2 ∈ ci.codes,
        c2 ∉ nearCodes ci.codes (bit_vector_to_int (hash_bits mu r d.vec)) n →
        hamming_distance (bit_vector_to_int (hash_bits mu r d.vec)) c ≤
          hamming_distance (bit_vector_to_int (hash_bits mu r d.vec)) c2) ∧
    (∃ k ≤ (nearCodes ci.codes (bit_vector_to_int (hash_bits mu r d.vec)) n).length,
      collect_neighbors ci (min n ci.count) []
          (nearCodes ci.codes (bit_vector_to_int (hash_bits mu r d.vec)) n)
        = bucketsOf ci
            ((nearCodes ci.codes (bit_vector_to_int (hash_bits mu r d.vec)) n).take k) ∧
      (∀ j < k,
        (bucketsOf ci
          ((nearCodes ci.codes (bit_vector_to_int (hash_bits mu r d.vec)) n).take j)).length
          < min n ci.count) ∧
      (k < (nearCodes ci.codes (bit_vector_to_int (hash_bits mu r d.vec)) n).length →
        min n ci.count ≤
          (bucketsOf ci
            ((nearCodes ci.codes
              (bit_vector_to_int (hash_bits mu r d.vec)) n).take k)).length)) ∧
    (∃ res, nn distFn st d n = .ok res ∧
      res.length = min n ((collect_neighbors ci (min n ci.count) []
        (nearCodes ci.codes (bit_vector_to_int (hash_bits mu r d.vec)) n)).length)) := by
  have hterm_pos : 0 < min n ci.count := lt_min hn hpos
  set q := bit_vector_to_int (hash_bits mu r d.vec) with hq
  refine ⟨?_, nearCodes_sorted ci.codes q n, nearCodes_length ci.codes q n, ?_, ?_, ?_, ?_⟩
  · intro c hcm
    exact nearCodes_mem hcm
  · intro hle
    exact nearCodes_all hle
  · intro c hcm c2 hc2 hc2n
    exact nearCodes_smallest hcm hc2 hc2n
  · obtain ⟨k, hk, heq, hfirst, hreach⟩ :=
      collect_neighbors_spec ci (min n ci.count) (nearCodes ci.codes q n) []
        (by simpa using hterm_pos)
    refine ⟨k, hk, by simpa using heq, ?_, ?_⟩
    · intro j hj
      have := hfirst j hj
      simpa using this
    · intro hklt
      have := hreach hklt
      simpa using this
  · obtain ⟨res, hok, hlen, _, _⟩ := nn_ok_core distFn hm hr hc hpos d hn
    exact ⟨res, hok, hlen⟩

/-- Witness for C6 at a concrete trained one-element index. -/
theorem c6_witness :
    stTrained.mean_vector = some [5] ∧ stTrained.r = some [[7]] ∧
    stTrained.code_index = some ⟨[(1, dElem9)]⟩ ∧
    0 < CodeIndex.count ⟨[(1, dElem9)]⟩ ∧ 1 ≤ 1 ∧
    (∀ c ∈ nearCodes (CodeIndex.codes ⟨[(1, dElem9)]⟩)
        (bit_vector_to_int (hash_bits [5] [[7]] dElem0.vec)) 1,
      c ∈ CodeIndex.codes ⟨[(1, dElem9)]⟩) :=
  ⟨rfl, rfl, rfl, by decide, by decide,
    (@c6_theorem (fun _ _ => 0) stTrained [5] [[7]] ⟨[(1, dElem9)]⟩
      rfl rfl rfl (by decide) dElem0 1 (by decide)).1⟩

/-- C7: `build_index` over an empty descriptor collection fails with
the dedicated `ValueError("No descriptors given!")` — the error the
spec's taxonomy names `InputError` — and leaves the state untouched:
no mean vector, rotation or code index is installed. -/
theorem c7_theorem (env : NumEnv) (factory : Except PyError CodeIndex)
    (st : ITQState) (rng : Nat) :
    build_index env factory st [] rng =
      (.error (.valueError "No descriptors given!"), st,
        initRng env st.rand_seed rng) := rfl

/-- `_find_itq_rotation` produces one row of code bits per data row. -/
theorem find_itq_rotation_fst_length (env : NumEnv) (v : List (List ℚ))
    (n_iter rng : Nat) : (find_itq_rotation env v n_iter rng).1.length = v.length := by
  simp [find_itq_rotation, matMul]

/-- A successful `build_index` with a fresh empty code index installs
exactly one code entry per training descriptor. -/
theorem count_after_build (env : NumEnv) (st : ITQState)
    (ds : List DescriptorElement) (rng : Nat) (hne : ds ≠ []) :
    ((build_index env (.ok ⟨[]⟩) st ds rng).2.1).count = ds.length := by
  have hx : (ds.map DescriptorElement.vec).isEmpty = false := by
    rcases ds with _ | ⟨a, l⟩
    · exact absurd rfl hne
    · rfl
  simp only [build_index, hx, Bool.false_eq_true, if_false, ITQState.count,
    CodeIndex.add_many, CodeIndex.count, List.nil_append, List.length_zipWith,
    find_itq_rotation_fst_length]
  simp [matMul]

/-- C9: rebuilding the index over the same corpus leaves `count()`
unchanged — the second training pass replaces, rather than appends to,
the first pass's code-index content. -/
theorem c9_theorem (env : NumEnv) (st : ITQState) (ds : List DescriptorElement)
    (rng1 rng2 : Nat) (hne : ds ≠ []) :
    ((build_index env (.ok ⟨[]⟩)
        ((build_index env (.ok ⟨[]⟩) st ds rng1).2.1) ds rng2).2.1).count
      = ((build_index env (.ok ⟨[]⟩) st ds rng1).2.1).count := by
  rw [count_after_build env _ ds rng2 hne, count_after_build env st ds rng1 hne]

/-- Witness for C9: two consecutive builds over the same two-descriptor
corpus. -/
theorem c9_witness :
    [dElem0, dElem1] ≠ ([] : List DescriptorElement) ∧
    ((build_index toyEnv (.ok ⟨[]⟩)
        ((build_index toyEnv (.ok ⟨[]⟩) stSeed0 [dElem0, dElem1] 0).2.1)
        [dElem0, dElem1] 1).2.1).count
      = ((build_index toyEnv (.ok ⟨[]⟩) stSeed0 [dElem0, dElem1] 0).2.1).count :=
  ⟨by decide, c9_theorem toyEnv stSeed0 [dElem0, dElem1] 0 1 (by decide)⟩

/-- C10: `count()` on a freshly constructed instance returns 0 rather
than raising; after a successful training pass it returns the installed
code index's total descriptor count. -/
theorem c10_theorem :
    (∀ (b t : Nat) (dm : String) (s : Option Int) (st : ITQState),
      ITQ_init b t dm s = .ok st → st.count = 0) ∧
    (∀ (env : NumEnv) (ci0 : CodeIndex) (st : ITQState)
        (ds : List DescriptorElement) (rng : Nat), ds ≠ [] →
      (build_index env (.ok ci0) st ds rng).1 = .ok () ∧
      ∃ ci, ((build_index env (.ok ci0) st ds rng).2.1).code_index = some ci ∧
        ((build_index env (.ok ci0) st ds rng).2.1).count = ci.count) := by
  constructor
  · intro b t dm s st h
    rw [ITQ_init] at h
    split at h
    · exact absurd h (by simp)
    · split at h
      · exact absurd h (by simp)
      · rcases hg : get_dist_func dm with e | dmv
        · rw [hg] at h
          exact absurd h (by simp)
        · rw [hg] at h
          injection h with h2
          subst h2
          rfl
  · intro env ci0 st ds rng hne
    have hx : (ds.map DescriptorElement.vec).isEmpty = false := by
      rcases ds with _ | ⟨a, l⟩
      · exact absurd rfl hne
      · rfl
    refine ⟨by simp [build_index, hx], ?_⟩
    simp only [build_index, hx, Bool.false_eq_true, if_false, ITQState.count]
    exact ⟨_, rfl, rfl⟩

/-- Witness for C10: a fresh construction and a successful concrete
build. -/
theorem c10_witness :
    (ITQ_init 1 1 "cosine" (some 0) = .ok stSeed0 ∧ stSeed0.count = 0) ∧
    ([dElem0, dElem1] ≠ ([] : List DescriptorElement) ∧
      (build_index toyEnv (.ok ⟨[]⟩) stSeed0 [dElem0, dElem1] 0).1 = .ok () ∧
      ∃ ci, ((build_index toyEnv (.ok ⟨[]⟩) stSeed0 [dElem0, dElem1] 0).2.1).code_index
          = some ci ∧
        ((build_index toyEnv (.ok ⟨[]⟩) stSeed0 [dElem0, dElem1] 0).2.1).count
          = ci.count) :=
  ⟨⟨rfl, c10_theorem.1 1 1 "cosine" (some 0) stSeed0 rfl⟩,
    by decide,
    c10_theorem.2 toyEnv ⟨[]⟩ stSeed0 [dElem0, dElem1] 0 (by decide)⟩

/-- C1 (counterexample): on a freshly constructed — hence empty — index,
`nn(d, 1)` does not fail with the `EmptyIndexError` the claim names: the
source defines no such exception and instead crashes with `TypeError`
from `numpy.dot(v - None, None)`. -/
theorem c1_counterexample :
    nn (fun _ _ => 0) stSeed0 dElem0 1 ≠ .error PyError.emptyIndexError ∧
    nn (fun _ _ => 0) stSeed0 dElem0 1 = .error PyError.typeError ∧
    stSeed0.count = 0 := by
  refine ⟨?_, rfl, rfl⟩
  intro h
  rw [show nn (fun _ _ => 0) stSeed0 dElem0 1 = .error PyError.typeError from rfl] at h
  simp at h

/-- C1 (amended): on every index state holding zero descriptors, `nn`
with any probe and any `n ≥ 1` does fail — but with an incidental error
(`TypeError` when untrained, `AttributeError` when no code index is
attached, `ValueError` from empty-tuple unpacking when a code index is
present but empty), never with a dedicated `EmptyIndexError`. -/
theorem c1_amended (distFn : List ℚ → List ℚ → ℚ) (st : ITQState)
    (d : DescriptorElement) (n : Nat) (hn : 1 ≤ n) (hempty : st.count = 0) :
    ∃ e, nn distFn st d n = .error e ∧ e ≠ PyError.emptyIndexError := by
  cases hm : st.mean_vector with
  | none =>
      refine ⟨.typeError, ?_, by simp⟩
      simp [nn, get_small_code, hm]
  | some mu =>
      cases hr : st.r with
      | none =>
          refine ⟨.typeError, ?_, by simp⟩
          simp [nn, get_small_code, hm, hr]
      | some r =>
          cases hc : st.code_index with
          | none =>
              refine ⟨.attributeError, ?_, by simp⟩
              simp [nn, get_small_code, hm, hr, hc]
          | some ci =>
              have hci : ci.count = 0 := by
                rw [ITQState.count, hc] at hempty
                exact hempty
              have hent : ci.entries = [] := List.length_eq_zero.mp hci
              refine ⟨.valueError "need more than 0 values to unpack", ?_, by simp⟩
              rw [nn_eq distFn hm hr hc d n]
              simp [nn_trained, CodeIndex.codes, hent, nearCodes, sortStable,
                collect_neighbors]

/-- Witness for the amended C1 at a concrete empty trained-over-nothing
state reachable through `load_index`. -/
theorem c1_witness :
    1 ≤ 1 ∧ ITQState.count { stTrained with code_index := some ⟨[]⟩ } = 0 ∧
    ∃ e, nn (fun _ _ => 0) { stTrained with code_index := some ⟨[]⟩ } dElem0 1
        = .error e ∧ e ≠ PyError.emptyIndexError :=
  ⟨by decide, rfl,
    c1_amended (fun _ _ => 0) { stTrained with code_index := some ⟨[]⟩ }
      dElem0 1 (by decide) rfl⟩

/-- C2: evidence of the divergence.  A rebuild whose code-index factory
raises after the numerical stages leaves the error propagating while
`_mean_vector` and `_r` have already been overwritten: the previously
installed trained state (mean `[5]`, rotation `[[7]]`) is not left
unchanged. -/
theorem c2_evidence :
    (build_index toyEnv (.error .typeError) stTrained [dElem0, dElem1] 0).1
        = .error PyError.typeError ∧
    (build_index toyEnv (.error .typeError) stTrained [dElem0, dElem1] 0).2.1.mean_vector
        = some [1] ∧
    (build_index toyEnv (.error .typeError) stTrained [dElem0, dElem1] 0).2.1.mean_vector
        ≠ stTrained.mean_vector ∧
    (build_index toyEnv (.error .typeError) stTrained [dElem0, dElem1] 0).2.1.r
        ≠ stTrained.r ∧
    (build_index toyEnv (.error .typeError) stTrained [dElem0, dElem1] 0).2.1.code_index
        = stTrained.code_index := by
  with_unfolding_all decide

/-- C3 (counterexample): with `random_seed = 0` — a fixed integer seed —
the truthiness test `if self._rand_seed:` skips reseeding, so two runs
from different ambient RNG states both succeed but produce different
fused rotations and different code assignments (the means agree). -/
theorem c3_counterexample :
    (build_index toyEnv (.ok ⟨[]⟩) stSeed0 [dElem0, dElem1] 0).1 = .ok () ∧
    (build_index toyEnv (.ok ⟨[]⟩) stSeed0 [dElem0, dElem1] 1).1 = .ok () ∧
    ¬ ((build_index toyEnv (.ok ⟨[]⟩) stSeed0 [dElem0, dElem1] 0).2.1.mean_vector
          = (build_index toyEnv (.ok ⟨[]⟩) stSeed0 [dElem0, dElem1] 1).2.1.mean_vector ∧
       (build_index toyEnv (.ok ⟨[]⟩) stSeed0 [dElem0, dElem1] 0).2.1.r
          = (build_index toyEnv (.ok ⟨[]⟩) stSeed0 [dElem0, dElem1] 1).2.1.r ∧
       (build_index toyEnv (.ok ⟨[]⟩) stSeed0 [dElem0, dElem1] 0).2.1.code_index
          = (build_index toyEnv (.ok ⟨[]⟩) stSeed0 [dElem0, dElem1] 1).2.1.code_index) := by
  with_unfolding_all decide

/-- C3 (amended): for every fixed nonzero integer seed, two runs of
`build_index` on the same corpus with the same configuration agree
bitwise — outcome, mean vector, fused rotation, code assignments and
final RNG state — whatever the ambient RNG states were. -/
theorem c3_amended (env : NumEnv) (factory : Except PyError CodeIndex)
    (st : ITQState) (ds : List DescriptorElement) (s : Int) (rng1 rng2 : Nat)
    (hs : st.rand_seed = some s) (hnz : s ≠ 0) :
    build_index env factory st ds rng1 = build_index env factory st ds rng2 := by
  have h : initRng env st.rand_seed rng1 = initRng env st.rand_seed rng2 := by
    simp [initRng, hs, if_neg hnz]
  simp only [build_index]
  rw [h]

/-- Witness for the amended C3 with seed 5 and two distinct ambient RNG
states. -/
theorem c3_witness :
    stSeed5.rand_seed = some 5 ∧ (5 : Int) ≠ 0 ∧
    build_index toyEnv (.ok ⟨[]⟩) stSeed5 [dElem0, dElem1] 0
      = build_index toyEnv (.ok ⟨[]⟩) stSeed5 [dElem0, dElem1] 9 :=
  ⟨rfl, by decide,
    c3_amended toyEnv (.ok ⟨[]⟩) stSeed5 [dElem0, dElem1] 5 0 9 rfl (by decide)⟩

/-- A location with no save file. -/
def fsMissing : FileSystem := fun _ => none

/-- A location whose save file `cPickle.load` rejects. -/
def fsCorrupt : FileSystem := fun _ => some .corrupt

/-- A persisted record whose bit length (4) differs from the configured
index's (1). -/
def savedRec : SavedState :=
  { bit_len := 4, itq_iter := 9, rand_seed := none, mean_vector := [0],
    rotation := [[1]], code_index := ⟨[(1, dElem9)]⟩,
    distance_method := "euclidean" }

/-- A location holding a structurally valid save of `savedRec`. -/
def fsValid : FileSystem := fun _ => some (.valid savedRec)

/-- C8 (counterexample): an unreadable (corrupt) save file does not fail
with the dedicated load error — the deserialisation error propagates
instead — and a structurally valid record whose bit length mismatches
the configured index is silently installed wholesale, replacing the
configured bit length rather than being rejected or detected. -/
theorem c8_counterexample :
    (load_index fsCorrupt stTrained "loc").1 = .error PyError.unpicklingError ∧
    (load_index fsCorrupt stTrained "loc").1 ≠ .error PyError.stateLoadError ∧
    stTrained.bit_len = 1 ∧ savedRec.bit_len = 4 ∧
    (load_index fsValid stTrained "loc").1 = .ok () ∧
    (load_index fsValid stTrained "loc").2.bit_len = 4 := by
  refine ⟨rfl, ?_, rfl, rfl, rfl, rfl⟩
  intro h
  rw [show (load_index fsCorrupt stTrained "loc").1 = .error PyError.unpicklingError
    from rfl] at h
  simp at h

/-- C8 (amended): `load_index` fails with the dedicated load error
exactly when the save file is missing; a corrupt file surfaces the
deserialisation error unwrapped; a structurally valid record with a
recognised distance label is installed wholesale, every field —
including the persisted bit length — replacing the configured one. -/
theorem c8_amended (fs : FileSystem) (st : ITQState) (dir : String) :
    (fs dir = none → load_index fs st dir = (.error .stateLoadError, st)) ∧
    (fs dir = some .corrupt →
      load_index fs st dir = (.error .unpicklingError, st)) ∧
    (∀ s, fs dir = some (.valid s) →
      ∀ dm, get_dist_func s.distance_method = .ok dm →
      load_index fs st dir =
        (.ok (),
          { bit_len := s.bit_len,
            itq_iter_num := s.itq_iter,
            rand_seed := s.rand_seed,
            mean_vector := some s.mean_vector,
            r := some s.rotation,
            code_index := some s.code_index,
            dist_method := s.distance_method })) := by
  refine ⟨?_, ?_, ?_⟩
  · intro h
    simp [load_index, h]
  · intro h
    simp [load_index, h]
  · intro s h dm hg
    simp [load_index, h, hg]

/-- Witness for the amended C8 at the three concrete locations. -/
theorem c8_witness :
    (fsMissing "loc" = none ∧
      load_index fsMissing stTrained "loc" = (.error .stateLoadError, stTrained)) ∧
    (fsCorrupt "loc" = some .corrupt ∧
      load_index fsCorrupt stTrained "loc" = (.error .unpicklingError, stTrained)) ∧
    (fsValid "loc" = some (.valid savedRec) ∧
      get_dist_func savedRec.distance_method = .ok .euclidean ∧
      load_index fsValid stTrained "loc" =
        (.ok (),
          { bit_len := savedRec.bit_len,
            itq_iter_num := savedRec.itq_iter,
            rand_seed := savedRec.rand_seed,
            mean_vector := some savedRec.mean_vector,
            r := some savedRec.rotation,
            code_index := some savedRec.code_index,
            dist_method := savedRec.distance_method })) :=
  ⟨⟨rfl, (c8_amended fsMissing stTrained "loc").1 rfl⟩,
   ⟨rfl, (c8_amended fsCorrupt stTrained "loc").2.1 rfl⟩,
   ⟨rfl, by decide,
     (c8_amended fsValid stTrained "loc").2.2 savedRec rfl DistMethod.euclidean
       (by decide)⟩⟩

end ITQ
